import Mathlib

/-!
Verification development for the qpick query-similarity engine
(`src/lib.rs`).  The reading path of the engine is embedded shallowly:

* machine integers are modelled as `ℕ`;
* `f32` values are modelled as `ℚ`, with the transcendental `log2`
  carried as an explicit function parameter (nothing in the claims
  depends on its values), and — where NaN behaviour matters — as
  `Option ℚ` with `none` playing the role of NaN;
* `HashMap`s are modelled as association lists with unique keys,
  updated exactly the way the source updates them;
* a `File` is a list of bytes; the outcome of the single `read` call in
  `read_bucket` (how many bytes were delivered, or an error) is an
  explicit `Option ℕ` parameter;
* Rust's stable `sort_by` is modelled as a stable insertion sort driven
  by the same three-valued comparator.

The crate modules `util`, `ngrams`, `config`, `stopwords` are not part
of the source snapshot; the definitions taken from them are modelled
from the spec and marked as such in their doc comments.
-/

namespace Qpick

/-- Engine configuration: the four process-wide constants `ID_SIZE`,
`BUCKET_SIZE`, `NR_SHARDS`, `SHARD_SIZE` set in `Qpick::new`. -/
structure Config where
  idSize : ℕ
  bucketSize : ℕ
  nrShards : ℕ
  shardSize : ℕ
deriving DecidableEq

/-- Structural floor square root (candidate countdown), used so that the
pair-codec inverse is kernel-computable; proved equal to `Nat.sqrt`
below. -/
def sqrtAux : ℕ → ℕ → ℕ
  | 0, _ => 0
  | (s+1), v => if (s+1)*(s+1) ≤ v then s+1 else sqrtAux s v

/-- Floor square root, `⌊√v⌋`. -/
def floorSqrt (v : ℕ) : ℕ := sqrtAux v v

/-- Modelled from the spec (§4.1); `util::elegant_pair_inv` is in the
crate's `util` module, absent from the source snapshot.  Inverse of the
Elegant/Szudzik pairing: take `s = ⌊√v⌋` and compare `v − s²` with `s`;
if smaller the pair is `(v − s², s)`, otherwise `(s, v − s² − s)`. -/
def elegant_pair_inv (v : ℕ) : ℕ × ℕ :=
  let s := floorSqrt v
  if v - s * s < s then (v - s * s, s) else (s, v - s * s - s)

/-- Modelled from the spec (§3); `util::pqid2qid` is in the crate's
`util` module, absent from the source snapshot.  Reconstructs the
external query id: `qid = pqid · NR_SHARDS + remainder`. -/
def pqid2qid (pqid rem nrShards : ℕ) : ℕ := pqid * nrShards + rem

/-- Lookup in an association list with `String` keys; models
`fst::Map::get` (the FST is an external library mapping each stored
n-gram to a packed `u64`). -/
def sllookup (m : List (String × ℕ)) (k : String) : Option ℕ :=
  match m with
  | [] => none
  | (k', v) :: rest => if k' = k then some v else sllookup rest k

/-- Embedding of `get_addr_and_len`: FST lookup followed by the pair
codec inverse. -/
def get_addr_and_len (ngram : String) (map : List (String × ℕ)) : Option (ℕ × ℕ) :=
  match sllookup map ngram with
  | some val => some (elegant_pair_inv val)
  | none => none

/-- Little-endian `u32` built from four consecutive bytes of a buffer
(out-of-range reads give 0, matching the zero-initialised buffer). -/
def readU32LE (buf : List ℕ) (j : ℕ) : ℕ :=
  buf.getD j 0 + 256 * buf.getD (j+1) 0 + 65536 * buf.getD (j+2) 0
    + 16777216 * buf.getD (j+3) 0

/-- Decoding of one posting record `(pqid, remainder, tr, f)` at byte
offset `j` of a buffer. -/
def decodeRec (buf : List ℕ) (j : ℕ) : ℕ × ℕ × ℕ × ℕ :=
  (readU32LE buf j, buf.getD (j+4) 0, buf.getD (j+5) 0, buf.getD (j+6) 0)

/-- Embedding of `read_bucket(file, addr, len)`.  `addr` is a byte
address.  `readResult` is the outcome of the single `read` call:
`none` models an `Err` (which `unwrap_or(0)` turns into 0 bytes), and
`some n` models `Ok(n)`.  The buffer is zero-initialised with size
`BUCKET_SIZE · ID_SIZE` and its first `n` bytes are filled from the
file; if `n > 0` the code decodes `len` records from that buffer
(regardless of `n`), otherwise it returns the empty vector. -/
def read_bucket (cfg : Config) (file : List ℕ) (addr len : ℕ)
    (readResult : Option ℕ) : List (ℕ × ℕ × ℕ × ℕ) :=
  let n := readResult.getD 0
  let buf := (file.drop addr).take n ++ List.replicate (cfg.bucketSize * cfg.idSize - n) 0
  if 0 < n then (List.range len).map (fun i => decodeRec buf (i * cfg.idSize)) else []

/-- Scored result entry, `struct Sid { id: u64, sc: f32 }` with the
score modelled as `ℚ`. -/
structure Sid where
  id : ℕ
  sc : ℚ
deriving DecidableEq

/-- Per-shard scorer result, `struct ShardIds`. -/
structure ShardIds where
  ids : List Sid
  norm : ℚ
deriving DecidableEq

/-- Three-valued comparison on `ℕ`, mirroring `u64::partial_cmp`. -/
def cmpNat (x y : ℕ) : Ordering :=
  if x < y then .lt else if x = y then .eq else .gt

/-- Three-valued comparison on `ℚ`, mirroring `f32::partial_cmp` on
non-NaN values. -/
def cmpQ (x y : ℚ) : Ordering :=
  if x < y then .lt else if x = y then .eq else .gt

/-- Embedding of `impl PartialOrd for Sid` (NaN-free scores): if the two
scores are equal (`PartialEq` on `Sid` compares only `sc`), compare the
ids, otherwise compare the scores. -/
def sidPartialCmp (a b : Sid) : Option Ordering :=
  if a.sc = b.sc then some (cmpNat a.id b.id) else some (cmpQ a.sc b.sc)

/-- Comparator passed to `sort_by` in the source:
`a.partial_cmp(&b).unwrap_or(Ordering::Less).reverse()`. -/
def sidSortCmp (a b : Sid) : Ordering :=
  ((sidPartialCmp a b).getD .lt).swap

/-- Result entry with an `f32` score that may be NaN (`none`). -/
structure SidF where
  id : ℕ
  sc : Option ℚ
deriving DecidableEq

/-- Equality test of two `f32` values with NaN modelled as `none`:
NaN compares unequal to everything, including itself. -/
def f32Eq : Option ℚ → Option ℚ → Bool
  | some x, some y => x == y
  | _, _ => false

/-- Comparison of two `f32` values with NaN modelled as `none`:
any comparison involving NaN is `None` (incomparable). -/
def f32PartialCmp : Option ℚ → Option ℚ → Option Ordering
  | some x, some y => some (cmpQ x y)
  | _, _ => none

/-- Embedding of `impl PartialOrd for Sid` on the NaN-aware score
model. -/
def sidFPartialCmp (a b : SidF) : Option Ordering :=
  if f32Eq a.sc b.sc then some (cmpNat a.id b.id) else f32PartialCmp a.sc b.sc

/-- NaN-aware comparator passed to `sort_by`:
`a.partial_cmp(&b).unwrap_or(Ordering::Less).reverse()`. -/
def sidFSortCmp (a b : SidF) : Ordering :=
  ((sidFPartialCmp a b).getD .lt).swap

/-- Relation underlying Rust's stable `slice::sort_by`: element `a` may
stay before element `b` unless the comparator reports `b` strictly less
than `a`. -/
def keepBefore {α : Type} (cmp : α → α → Ordering) (a b : α) : Prop :=
  cmp b a ≠ Ordering.lt

instance keepBeforeDec {α : Type} (cmp : α → α → Ordering) : DecidableRel (keepBefore cmp) :=
  fun _ _ => instDecidableNot

/-- Model of Rust's stable `sort_by`: a stable insertion sort that keeps
an earlier element before a later one unless the comparator says the
later one is strictly less. -/
def rustSortBy {α : Type} (cmp : α → α → Ordering) (l : List α) : List α :=
  List.insertionSort (keepBefore cmp) l

/-- Association-list model of `*map.entry(k).or_insert(0.0) += v` on a
`HashMap<_, f32>`. -/
def entryAdd (m : List (ℕ × ℚ)) (k : ℕ) (v : ℚ) : List (ℕ × ℚ) :=
  match m with
  | [] => [(k, v)]
  | (k', v') :: rest => if k' = k then (k', v' + v) :: rest else (k', v') :: entryAdd rest k v

/-- Lookup in an association list with `ℕ` keys. -/
def alookup (m : List (ℕ × ℚ)) (k : ℕ) : Option ℚ :=
  match m with
  | [] => none
  | (k', v) :: rest => if k' = k then some v else alookup rest k

/-- Accumulated score of key `k` (0 when absent). -/
def assocGet (m : List (ℕ × ℚ)) (k : ℕ) : ℚ := (alookup m k).getD 0

/-- Keys of an association list. -/
def keysOf (m : List (ℕ × ℚ)) : List ℕ := m.map Prod.fst

/-- Association-list model of `HashMap::insert` (replace on collision,
append otherwise) for `String` keys. -/
def mapInsert (m : List (String × ℚ)) (k : String) (v : ℚ) : List (String × ℚ) :=
  match m with
  | [] => [(k, v)]
  | (k', v') :: rest => if k' = k then (k, v) :: rest else (k', v') :: mapInsert rest k v

/-- Model of `shards_ngrams.entry(shard_id).or_insert(HashMap::new())`
followed by `sh_ngrams.insert(ngram, sc)`. -/
def shardMapInsert (m : List (ℕ × List (String × ℚ))) (sid : ℕ) (g : String) (v : ℚ) :
    List (ℕ × List (String × ℚ)) :=
  match m with
  | [] => [(sid, mapInsert [] g v)]
  | (k, ng) :: rest =>
      if k = sid then (k, mapInsert ng g v) :: rest else (k, ng) :: shardMapInsert rest sid g v

/-- Body of the inner posting loop of `get_query_ids`: decode the
record, rebuild the query id, and add
`min(tr/100, ntr) · (1 + f/1000) · log2(shard_size/len)` to its score.
`min` models `util::min` on `f32` (the `util` module is absent from the
snapshot; the spec names it `min`). -/
def recordStep (cfg : Config) (log2 : ℚ → ℚ) (ntr : ℚ) (len : ℕ)
    (m : List (ℕ × ℚ)) (r : ℕ × ℕ × ℕ × ℕ) : List (ℕ × ℚ) :=
  let qid := pqid2qid r.1 r.2.1 cfg.nrShards
  let weight := min ((r.2.2.1 : ℚ) / 100) ntr * (1 + (r.2.2.2 : ℚ) / 1000)
  entryAdd m qid (weight * log2 ((cfg.shardSize : ℚ) / (len : ℚ)))

/-- Body of the n-gram loop of `get_query_ids`: on an FST hit, fold the
decoded bucket into the score map and add `ntr · log2(shard_size/len)`
to the normaliser; on a miss add `ntr · log2(shard_size)`. -/
def ngramStep (cfg : Config) (log2 : ℚ → ℚ) (map : List (String × ℕ)) (file : List ℕ)
    (ro : ℕ → Option ℕ) (acc : List (ℕ × ℚ) × ℚ) (p : String × ℚ) :
    List (ℕ × ℚ) × ℚ :=
  match get_addr_and_len p.1 map with
  | some al =>
      let recs := read_bucket cfg file (al.1 * cfg.idSize) al.2 (ro (al.1 * cfg.idSize))
      (recs.foldl (recordStep cfg log2 p.2 al.2) acc.1,
        acc.2 + p.2 * log2 ((cfg.shardSize : ℚ) / (al.2 : ℚ)))
  | none => (acc.1, acc.2 + p.2 * log2 (cfg.shardSize : ℚ))

/-- The two accumulators (`_ids`, `_norm`) of `get_query_ids` after the
n-gram loop. -/
def scoreNormFold (cfg : Config) (log2 : ℚ → ℚ) (map : List (String × ℕ)) (file : List ℕ)
    (ro : ℕ → Option ℕ) (ngrams : List (String × ℚ)) : List (ℕ × ℚ) × ℚ :=
  ngrams.foldl (ngramStep cfg log2 map file ro) ([], 0)

/-- Embedding of `get_query_ids`: accumulate scores and normaliser over
the n-grams, turn the score map into `Sid`s, sort with the reversed
comparator, truncate to `count`. -/
def get_query_ids (cfg : Config) (log2 : ℚ → ℚ) (ngrams : List (String × ℚ))
    (map : List (String × ℕ)) (file : List ℕ) (ro : ℕ → Option ℕ) (count : ℕ) : ShardIds :=
  let acc := scoreNormFold cfg log2 map file ro ngrams
  ShardIds.mk ((rustSortBy sidSortCmp (acc.1.map (fun p => Sid.mk p.1 p.2))).take count) acc.2

/-- Engine state, modelling `struct Qpick`.  `maps i` and `files i` are
shard `i`'s FST and posting file; `ro i` gives the outcome of each
bucket read on shard `i` (by byte address).  The fields
`jumpHash` (for `util::jump_consistent_hash_str`) and `parse` (for
`ngrams::parse`) are modelled from the spec: both modules are absent
from the source snapshot, and the spec fixes only their types, so they
are carried as opaque function-valued fields.  `log2` models `f32::log`
base 2. -/
structure Engine where
  cfg : Config
  log2 : ℚ → ℚ
  jumpHash : String → ℕ
  maps : ℕ → List (String × ℕ)
  files : ℕ → List ℕ
  ro : ℕ → ℕ → Option ℕ
  rangeStart : ℕ
  rangeEnd : ℕ
  parse : String → List (String × ℚ)

/-- Per-shard over-fetch rule of `get_ids`:
`match count { Some(1...50) => 100, _ => count.unwrap() }` for
`count = Some k`. -/
def shard_count_of (k : ℕ) : ℕ := if 1 ≤ k ∧ k ≤ 50 then 100 else k

/-- Partitioning loop of `get_ids`: n-grams whose shard hash falls
outside `[rangeStart, rangeEnd)` are skipped, the rest are grouped by
shard id. -/
def buildShardsNgrams (e : Engine) (ngrams : List (String × ℚ)) :
    List (ℕ × List (String × ℚ)) :=
  ngrams.foldl
    (fun acc p =>
      let sid := e.jumpHash p.1
      if e.rangeEnd ≤ sid ∨ sid < e.rangeStart then acc
      else shardMapInsert acc sid p.1 p.2)
    []

/-- Per-shard scorer calls made by `get_ids`. -/
def shardResults (e : Engine) (ngrams : List (String × ℚ)) (k : ℕ) : List ShardIds :=
  (buildShardsNgrams e ngrams).map
    (fun p => get_query_ids e.cfg e.log2 p.2 (e.maps p.1) (e.files p.1) (e.ro p.1)
      (shard_count_of k))

/-- Merge loop of `get_ids`: sum scores per id into `hdata` and sum the
norms. -/
def mergeShardIds (srs : List ShardIds) : List (ℕ × ℚ) × ℚ :=
  srs.foldl
    (fun acc sh => (sh.ids.foldl (fun m s => entryAdd m s.id s.sc) acc.1, acc.2 + sh.norm))
    ([], 0)

/-- Embedding of `Qpick::get_ids` with `count = Some k` (the only form
the source ever calls): partition, score per shard, merge, divide by
the global norm, sort, truncate to `k`. -/
def get_ids (e : Engine) (ngrams : List (String × ℚ)) (k : ℕ) : List Sid :=
  let acc := mergeShardIds (shardResults e ngrams k)
  (rustSortBy sidSortCmp (acc.1.map (fun p => Sid.mk p.1 (p.2 / acc.2)))).take k

/-- Embedding of `Qpick::get`. -/
def get (e : Engine) (query : String) (count : ℕ) : List Sid :=
  if query = "" ∨ count = 0 then [] else get_ids e (e.parse query) count

/-- N-gram map built by `Qpick::nget`: parse each query in order and
insert every parsed pair into one `HashMap` (last writer wins). -/
def ngetNgrams (e : Engine) (qvec : List String) : List (String × ℚ) :=
  qvec.foldl (fun m q => (e.parse q).foldl (fun m' p => mapInsert m' p.1 p.2) m) []

/-- Embedding of `Qpick::nget`. -/
def nget (e : Engine) (qvec : List String) (count : ℕ) : List Sid :=
  if qvec.length = 0 ∨ count = 0 then [] else get_ids e (ngetNgrams e qvec) count

/-- List that `Qpick::get_str` JSON-encodes: over-fetch with
`30 * count` (a wrapping `u32` product) and truncate to `count`. -/
def get_str_list (e : Engine) (query : String) (count : ℕ) : List (ℕ × ℚ) :=
  (((get e query ((30 * count) % 2^32)).map (fun s => (s.id, s.sc))).take count)

/-- List that `Qpick::nget_str` JSON-encodes. -/
def nget_str_list (e : Engine) (qvec : List String) (count : ℕ) : List (ℕ × ℚ) :=
  (((nget e qvec ((30 * count) % 2^32)).map (fun s => (s.id, s.sc))).take count)

/-- Records decoded for one n-gram (empty when the FST misses), as
`get_query_ids` reads them. -/
def ngramRecords (cfg : Config) (map : List (String × ℕ)) (file : List ℕ)
    (ro : ℕ → Option ℕ) (g : String) : List (ℕ × ℕ × ℕ × ℕ) :=
  match get_addr_and_len g map with
  | some al => read_bucket cfg file (al.1 * cfg.idSize) al.2 (ro (al.1 * cfg.idSize))
  | none => []

/-- Spec-side formula: total contribution of one n-gram to the score of
`qid`, namely `min(tr/100, ntr) · (1 + f/1000) · log2(shard_size/len)`
summed over the decoded records whose reconstructed id is `qid`. -/
def ngramContribution (cfg : Config) (log2 : ℚ → ℚ) (map : List (String × ℕ))
    (file : List ℕ) (ro : ℕ → Option ℕ) (qid : ℕ) (p : String × ℚ) : ℚ :=
  match get_addr_and_len p.1 map with
  | some al =>
      ((read_bucket cfg file (al.1 * cfg.idSize) al.2 (ro (al.1 * cfg.idSize))).map
        (fun r =>
          if pqid2qid r.1 r.2.1 cfg.nrShards = qid
          then min ((r.2.2.1 : ℚ) / 100) p.2 * (1 + (r.2.2.2 : ℚ) / 1000)
                 * log2 ((cfg.shardSize : ℚ) / (al.2 : ℚ))
          else 0)).sum
  | none => 0

/-- Spec-side formula: IDF of an n-gram in one shard,
`log2(shard_size/len)` on an FST hit and `log2(shard_size)` on a
miss. -/
def idfOf (cfg : Config) (log2 : ℚ → ℚ) (map : List (String × ℕ)) (g : String) : ℚ :=
  match get_addr_and_len g map with
  | some al => log2 ((cfg.shardSize : ℚ) / (al.2 : ℚ))
  | none => log2 (cfg.shardSize : ℚ)

/-- Spec-side formula: shard normaliser `Σ ntr · idf`. -/
def specNorm (cfg : Config) (log2 : ℚ → ℚ) (map : List (String × ℕ))
    (ngrams : List (String × ℚ)) : ℚ :=
  (ngrams.map (fun p => p.2 * idfOf cfg log2 map p.1)).sum

/-- Total score contributed to `id` by one shard's (truncated) result
list. -/
def listScore (ids : List Sid) (id : ℕ) : ℚ :=
  ((ids.filter (fun s => s.id = id)).map Sid.sc).sum

/-- Ordering the final sort actually establishes: score descending,
ties broken by id descending. -/
def sidLe (a b : Sid) : Prop :=
  b.sc < a.sc ∨ (b.sc = a.sc ∧ b.id ≤ a.id)

/-- Tiny concrete index used to exercise the pipeline: one shard
(`nr_shards = 1`), `id_size = 7`, `bucket_size = 2`, `shard_size = 4`. -/
def cfg0 : Config := { idSize := 7, bucketSize := 2, nrShards := 1, shardSize := 4 }

/-- Posting file with two records: `(pqid 0, rem 0, tr 100, f 0)` and
`(pqid 1, rem 0, tr 100, f 0)`. -/
def file0 : List ℕ := [0,0,0,0,0,100,0, 1,0,0,0,0,100,0]

/-- FST with the single n-gram `"a" ↦ pair(addr 0, len 2) = 4`. -/
def map0 : List (String × ℕ) := [("a", 4)]

/-- Read outcome of a healthy filesystem for `file0`: the full 14 bytes
are delivered. -/
def ro0 : ℕ → Option ℕ := fun _ => some 14

/-- Concrete engine over `cfg0`, with the identity function standing in
for `log2` (the claims hold for every `log2`), every n-gram hashed to
shard 0, and a parser producing the single n-gram `"a"` with weight
1. -/
def env0 : Engine :=
  { cfg := cfg0, log2 := fun q => q, jumpHash := fun _ => 0, maps := fun _ => map0,
    files := fun _ => file0, ro := fun _ => ro0, rangeStart := 0, rangeEnd := 1,
    parse := fun _ => [("a", 1)] }

/-- Posting file holding a single record `(pqid 1, rem 0, tr 100, f 0)`,
7 bytes long: a bucket read of 2 records can only be partially
served. -/
def file5 : List ℕ := [1,0,0,0,0,100,0]

theorem sqrtAux_eq (s v : ℕ) (h : Nat.sqrt v ≤ s) : sqrtAux s v = Nat.sqrt v := by
  induction s with
  | zero => simp only [sqrtAux]; omega
  | succ n ih =>
    simp only [sqrtAux]
    by_cases hc : (n+1)*(n+1) ≤ v
    · have h2 : n + 1 ≤ Nat.sqrt v := Nat.le_sqrt.mpr hc
      simp only [hc, if_true]
      omega
    · simp only [hc, if_false]
      apply ih
      have hs : Nat.sqrt v * Nat.sqrt v ≤ v := Nat.sqrt_le v
      by_contra hlt
      push_neg at hlt
      have : (n+1)*(n+1) ≤ Nat.sqrt v * Nat.sqrt v := Nat.mul_le_mul (by omega) (by omega)
      omega

/-- The structural floor square root agrees with `Nat.sqrt`, so
`elegant_pair_inv` does use `s = ⌊√v⌋`. -/
theorem floorSqrt_eq (v : ℕ) : floorSqrt v = Nat.sqrt v :=
  sqrtAux_eq v v (Nat.sqrt_le_self v)

theorem assocGet_nil (k : ℕ) : assocGet [] k = 0 := rfl

theorem assocGet_entryAdd (m : List (ℕ × ℚ)) (k k' : ℕ) (v : ℚ) :
    assocGet (entryAdd m k v) k' = assocGet m k' + (if k = k' then v else 0) := by
  induction m with
  | nil =>
    by_cases h : k = k' <;> simp [entryAdd, assocGet, alookup, h]
  | cons p rest ih =>
    obtain ⟨pk, pv⟩ := p
    by_cases h1 : pk = k
    · subst h1
      by_cases h2 : pk = k' <;> simp [entryAdd, assocGet, alookup, h2]
    · by_cases h2 : pk = k'
      · subst h2
        have hkk : ¬ k = pk := fun h => h1 h.symm
        simp [entryAdd, assocGet, alookup, h1, hkk]
      · simp only [entryAdd, assocGet, alookup, h1, if_false, h2]
        exact ih

theorem keysOf_entryAdd (m : List (ℕ × ℚ)) (k : ℕ) (v : ℚ) :
    keysOf (entryAdd m k v) = if k ∈ keysOf m then keysOf m else keysOf m ++ [k] := by
  induction m with
  | nil => simp [entryAdd, keysOf]
  | cons p rest ih =>
    obtain ⟨pk, pv⟩ := p
    by_cases h1 : pk = k
    · subst h1
      simp [entryAdd, keysOf]
    · have hkk : ¬ k = pk := fun h => h1 h.symm
      simp only [entryAdd, h1, if_false, keysOf, List.map_cons] at ih ⊢
      rw [ih]
      by_cases h2 : k ∈ List.map Prod.fst rest <;>
        simp [h2, hkk, List.mem_cons]

theorem nodup_keysOf_entryAdd (m : List (ℕ × ℚ)) (k : ℕ) (v : ℚ)
    (h : (keysOf m).Nodup) : (keysOf (entryAdd m k v)).Nodup := by
  rw [keysOf_entryAdd]
  by_cases hm : k ∈ keysOf m
  · simpa [hm] using h
  · simp only [hm, if_false]
    rw [List.nodup_append]
    refine ⟨h, List.nodup_singleton k, ?_⟩
    intro a ha hb
    rw [List.mem_singleton] at hb
    subst hb
    exact hm ha

theorem alookup_eq_of_mem (m : List (ℕ × ℚ)) (k : ℕ) (v : ℚ)
    (hnd : (keysOf m).Nodup) (hmem : (k, v) ∈ m) : alookup m k = some v := by
  induction m with
  | nil => cases hmem
  | cons p rest ih =>
    obtain ⟨pk, pv⟩ := p
    rcases List.mem_cons.mp hmem with heq | htl
    · obtain ⟨h1, h2⟩ := Prod.mk.injEq .. ▸ heq
      simp [alookup, h1.symm, ← h2]
    · have hnd2 : pk ∉ keysOf rest ∧ (keysOf rest).Nodup := List.nodup_cons.mp hnd
      have hk : pk ≠ k := by
        intro h
        subst h
        exact hnd2.1 (List.mem_map_of_mem Prod.fst htl)
      simp only [alookup, hk, if_false]
      exact ih hnd2.2 htl

theorem assocGet_foldl_recordStep (cfg : Config) (log2 : ℚ → ℚ) (ntr : ℚ) (len : ℕ)
    (recs : List (ℕ × ℕ × ℕ × ℕ)) (m : List (ℕ × ℚ)) (qid : ℕ) :
    assocGet (recs.foldl (recordStep cfg log2 ntr len) m) qid
      = assocGet m qid
        + (recs.map (fun r =>
            if pqid2qid r.1 r.2.1 cfg.nrShards = qid
            then min ((r.2.2.1 : ℚ) / 100) ntr * (1 + (r.2.2.2 : ℚ) / 1000)
                   * log2 ((cfg.shardSize : ℚ) / (len : ℚ))
            else 0)).sum := by
  induction recs generalizing m with
  | nil => simp
  | cons r rest ih =>
    simp only [List.foldl_cons, List.map_cons, List.sum_cons]
    rw [ih]
    unfold recordStep
    rw [assocGet_entryAdd]
    by_cases h : pqid2qid r.1 r.2.1 cfg.nrShards = qid <;> simp [h] <;> ring

theorem ngramStep_fst (cfg : Config) (log2 : ℚ → ℚ) (map : List (String × ℕ))
    (file : List ℕ) (ro : ℕ → Option ℕ) (acc : List (ℕ × ℚ) × ℚ) (p : String × ℚ)
    (qid : ℕ) :
    assocGet (ngramStep cfg log2 map file ro acc p).1 qid
      = assocGet acc.1 qid + ngramContribution cfg log2 map file ro qid p := by
  unfold ngramStep ngramContribution
  cases h : get_addr_and_len p.1 map with
  | none => simp
  | some al => simp [assocGet_foldl_recordStep]

theorem ngramStep_snd (cfg : Config) (log2 : ℚ → ℚ) (map : List (String × ℕ))
    (file : List ℕ) (ro : ℕ → Option ℕ) (acc : List (ℕ × ℚ) × ℚ) (p : String × ℚ) :
    (ngramStep cfg log2 map file ro acc p).2 = acc.2 + p.2 * idfOf cfg log2 map p.1 := by
  unfold ngramStep idfOf
  cases h : get_addr_and_len p.1 map <;> simp

theorem scoreNormFold_fst (cfg : Config) (log2 : ℚ → ℚ) (map : List (String × ℕ))
    (file : List ℕ) (ro : ℕ → Option ℕ) (ngrams : List (String × ℚ))
    (acc : List (ℕ × ℚ) × ℚ) (qid : ℕ) :
    assocGet (ngrams.foldl (ngramStep cfg log2 map file ro) acc).1 qid
      = assocGet acc.1 qid
        + (ngrams.map (ngramContribution cfg log2 map file ro qid)).sum := by
  induction ngrams generalizing acc with
  | nil => simp
  | cons p rest ih =>
    simp only [List.foldl_cons, List.map_cons, List.sum_cons]
    rw [ih, ngramStep_fst]
    ring

theorem scoreNormFold_snd (cfg : Config) (log2 : ℚ → ℚ) (map : List (String × ℕ))
    (file : List ℕ) (ro : ℕ → Option ℕ) (ngrams : List (String × ℚ))
    (acc : List (ℕ × ℚ) × ℚ) :
    (ngrams.foldl (ngramStep cfg log2 map file ro) acc).2
      = acc.2 + specNorm cfg log2 map ngrams := by
  induction ngrams generalizing acc with
  | nil => simp [specNorm]
  | cons p rest ih =>
    simp only [List.foldl_cons]
    rw [ih, ngramStep_snd]
    simp [specNorm]
    ring

theorem cmpNat_eq_gt_iff (x y : ℕ) : cmpNat x y = .gt ↔ y < x := by
  unfold cmpNat
  by_cases h1 : x < y
  · simp [h1]; omega
  · by_cases h2 : x = y <;> simp [h1, h2] <;> omega

theorem cmpQ_eq_gt_iff (x y : ℚ) : cmpQ x y = .gt ↔ y < x := by
  unfold cmpQ
  rcases lt_trichotomy x y with h | h | h
  · have hny : ¬ y < x := not_lt.mpr h.le
    simp [h, hny]
  · subst h
    simp
  · have h1 : ¬ x < y := not_lt.mpr h.le
    have h2 : x ≠ y := ne_of_gt h
    simp [h1, h2, h]

theorem swap_eq_lt_iff (o : Ordering) : o.swap = .lt ↔ o = .gt := by
  cases o <;> simp [Ordering.swap]

theorem sidSortCmp_spec (a b : Sid) :
    sidSortCmp a b = (if a.sc = b.sc then cmpNat a.id b.id else cmpQ a.sc b.sc).swap := by
  unfold sidSortCmp sidPartialCmp
  by_cases h : a.sc = b.sc <;> simp [h]

theorem keepBefore_sidSortCmp_iff (a b : Sid) :
    keepBefore sidSortCmp a b ↔ sidLe a b := by
  unfold keepBefore sidLe
  rw [sidSortCmp_spec, Ne, swap_eq_lt_iff]
  by_cases h : b.sc = a.sc
  · rw [if_pos h, cmpNat_eq_gt_iff]
    constructor
    · intro hn
      exact Or.inr ⟨h, by omega⟩
    · rintro (hlt | ⟨-, hle⟩)
      · rw [h] at hlt
        exact absurd hlt (lt_irrefl _)
      · omega
  · rw [if_neg h, cmpQ_eq_gt_iff]
    constructor
    · intro hn
      rcases lt_trichotomy b.sc a.sc with hlt | heq | hgt
      · exact Or.inl hlt
      · exact absurd heq h
      · exact absurd hgt hn
    · rintro (hlt | ⟨heq, -⟩)
      · exact not_lt.mpr hlt.le
      · exact absurd heq h

instance sidKeepBeforeTotal : IsTotal Sid (keepBefore sidSortCmp) := by
  constructor
  intro a b
  rw [keepBefore_sidSortCmp_iff, keepBefore_sidSortCmp_iff]
  unfold sidLe
  rcases lt_trichotomy a.sc b.sc with h | h | h
  · exact Or.inr (Or.inl h)
  · rcases le_total b.id a.id with hid | hid
    · exact Or.inl (Or.inr ⟨h.symm, hid⟩)
    · exact Or.inr (Or.inr ⟨h, hid⟩)
  · exact Or.inl (Or.inl h)

instance sidKeepBeforeTrans : IsTrans Sid (keepBefore sidSortCmp) := by
  constructor
  intro a b c hab hbc
  rw [keepBefore_sidSortCmp_iff] at hab hbc ⊢
  unfold sidLe at hab hbc ⊢
  rcases hab with h1 | ⟨h1, h1'⟩ <;> rcases hbc with h2 | ⟨h2, h2'⟩
  · exact Or.inl (h2.trans h1)
  · exact Or.inl (lt_of_eq_of_lt h2 h1)
  · exact Or.inl (lt_of_lt_of_eq h2 h1)
  · exact Or.inr ⟨h2.trans h1, le_trans h2' h1'⟩

/-- The final sort always produces a list that is pairwise `sidLe`:
score descending, equal scores broken by id descending. -/
theorem rustSortBy_pairwise (l : List Sid) :
    List.Pairwise sidLe (rustSortBy sidSortCmp l) := by
  have hs : List.Sorted (keepBefore sidSortCmp) (List.insertionSort (keepBefore sidSortCmp) l) :=
    List.sorted_insertionSort (keepBefore sidSortCmp) l
  exact (hs.imp (fun h => (keepBefore_sidSortCmp_iff _ _).mp h))

theorem pairwise_take {α : Type} {R : α → α → Prop} (n : ℕ) (l : List α)
    (h : List.Pairwise R l) : List.Pairwise R (l.take n) :=
  List.Pairwise.sublist (List.take_sublist n l) h

theorem listScore_cons (s : Sid) (rest : List Sid) (q : ℕ) :
    listScore (s :: rest) q = (if s.id = q then s.sc else 0) + listScore rest q := by
  by_cases h : s.id = q <;> simp [listScore, List.filter_cons, h]

theorem assocGet_foldl_sids (ids : List Sid) (m : List (ℕ × ℚ)) (q : ℕ) :
    assocGet (ids.foldl (fun m' s => entryAdd m' s.id s.sc) m) q
      = assocGet m q + listScore ids q := by
  induction ids generalizing m with
  | nil => simp [listScore]
  | cons s rest ih =>
    simp only [List.foldl_cons]
    rw [ih, assocGet_entryAdd, listScore_cons]
    ring

theorem nodup_foldl_sids (ids : List Sid) (m : List (ℕ × ℚ))
    (h : (keysOf m).Nodup) :
    (keysOf (ids.foldl (fun m' s => entryAdd m' s.id s.sc) m)).Nodup := by
  induction ids generalizing m with
  | nil => exact h
  | cons s rest ih =>
    simp only [List.foldl_cons]
    exact ih _ (nodup_keysOf_entryAdd _ _ _ h)

theorem keysOf_foldl_sids_subset (ids : List Sid) (m : List (ℕ × ℚ)) (q : ℕ)
    (h : q ∈ keysOf (ids.foldl (fun m' s => entryAdd m' s.id s.sc) m)) :
    q ∈ keysOf m ∨ q ∈ ids.map Sid.id := by
  induction ids generalizing m with
  | nil => exact Or.inl h
  | cons s rest ih =>
    simp only [List.foldl_cons] at h
    rcases ih _ h with hm | hrest
    · rw [keysOf_entryAdd] at hm
      by_cases hin : s.id ∈ keysOf m
      · rw [if_pos hin] at hm
        exact Or.inl hm
      · rw [if_neg hin] at hm
        rcases List.mem_append.mp hm with hm' | hs
        · exact Or.inl hm'
        · rw [List.mem_singleton] at hs
          exact Or.inr (by simp [hs])
    · exact Or.inr (by simp [hrest])

theorem mergeShardIds_foldl_fst (srs : List ShardIds) (acc : List (ℕ × ℚ) × ℚ) (q : ℕ) :
    assocGet ((srs.foldl
        (fun a sh => (sh.ids.foldl (fun m s => entryAdd m s.id s.sc) a.1, a.2 + sh.norm))
        acc).1) q
      = assocGet acc.1 q + (srs.map (fun sh => listScore sh.ids q)).sum := by
  induction srs generalizing acc with
  | nil => simp
  | cons sh rest ih =>
    simp only [List.foldl_cons, List.map_cons, List.sum_cons]
    rw [ih]
    simp only [assocGet_foldl_sids]
    ring

theorem mergeShardIds_foldl_snd (srs : List ShardIds) (acc : List (ℕ × ℚ) × ℚ) :
    ((srs.foldl
        (fun a sh => (sh.ids.foldl (fun m s => entryAdd m s.id s.sc) a.1, a.2 + sh.norm))
        acc).2)
      = acc.2 + (srs.map ShardIds.norm).sum := by
  induction srs generalizing acc with
  | nil => simp
  | cons sh rest ih =>
    simp only [List.foldl_cons, List.map_cons, List.sum_cons]
    rw [ih]
    ring

theorem mergeShardIds_fst (srs : List ShardIds) (q : ℕ) :
    assocGet (mergeShardIds srs).1 q = (srs.map (fun sh => listScore sh.ids q)).sum := by
  unfold mergeShardIds
  rw [mergeShardIds_foldl_fst]
  simp [assocGet_nil]

theorem mergeShardIds_snd (srs : List ShardIds) :
    (mergeShardIds srs).2 = (srs.map ShardIds.norm).sum := by
  unfold mergeShardIds
  rw [mergeShardIds_foldl_snd]
  simp

theorem nodup_mergeShardIds_aux (srs : List ShardIds) (acc : List (ℕ × ℚ) × ℚ)
    (h : (keysOf acc.1).Nodup) :
    (keysOf ((srs.foldl
        (fun a sh => (sh.ids.foldl (fun m s => entryAdd m s.id s.sc) a.1, a.2 + sh.norm))
        acc).1)).Nodup := by
  induction srs generalizing acc with
  | nil => exact h
  | cons sh rest ih =>
    simp only [List.foldl_cons]
    exact ih _ (nodup_foldl_sids _ _ h)

theorem nodup_mergeShardIds (srs : List ShardIds) : (keysOf (mergeShardIds srs).1).Nodup :=
  nodup_mergeShardIds_aux srs ([], 0) (by simp [keysOf])

theorem keysOf_mergeShardIds_aux (srs : List ShardIds) (acc : List (ℕ × ℚ) × ℚ) (q : ℕ)
    (h : q ∈ keysOf ((srs.foldl
        (fun a sh => (sh.ids.foldl (fun m s => entryAdd m s.id s.sc) a.1, a.2 + sh.norm))
        acc).1)) :
    q ∈ keysOf acc.1 ∨ ∃ sh ∈ srs, q ∈ sh.ids.map Sid.id := by
  induction srs generalizing acc with
  | nil => exact Or.inl h
  | cons sh rest ih =>
    simp only [List.foldl_cons] at h
    rcases ih _ h with hacc | ⟨sh', hsh', hq⟩
    · rcases keysOf_foldl_sids_subset _ _ _ hacc with hm | hid
      · exact Or.inl hm
      · exact Or.inr ⟨sh, List.mem_cons_self sh rest, hid⟩
    · exact Or.inr ⟨sh', List.mem_cons_of_mem sh hsh', hq⟩

theorem keysOf_mergeShardIds (srs : List ShardIds) (q : ℕ)
    (h : q ∈ keysOf (mergeShardIds srs).1) : ∃ sh ∈ srs, q ∈ sh.ids.map Sid.id := by
  rcases keysOf_mergeShardIds_aux srs ([], 0) q h with hnil | hex
  · cases hnil
  · exact hex

theorem mem_rustSortBy {α : Type} (cmp : α → α → Ordering) (l : List α) (a : α)
    (h : a ∈ rustSortBy cmp l) : a ∈ l :=
  (List.perm_insertionSort (keepBefore cmp) l).mem_iff.mp h

theorem mem_get_ids_char (e : Engine) (ngrams : List (String × ℚ)) (k : ℕ) (s : Sid)
    (h : s ∈ get_ids e ngrams k) :
    ∃ pr ∈ (mergeShardIds (shardResults e ngrams k)).1,
      s = Sid.mk pr.1 (pr.2 / (mergeShardIds (shardResults e ngrams k)).2) := by
  unfold get_ids at h
  have h1 := List.Sublist.subset (List.take_sublist k _) h
  have h2 := mem_rustSortBy _ _ _ h1
  rcases List.mem_map.mp h2 with ⟨pr, hpr, hs⟩
  exact ⟨pr, hpr, hs.symm⟩

theorem get_query_ids_norm (cfg : Config) (log2 : ℚ → ℚ) (ngrams : List (String × ℚ))
    (map : List (String × ℕ)) (file : List ℕ) (ro : ℕ → Option ℕ) (count : ℕ) :
    (get_query_ids cfg log2 ngrams map file ro count).norm = specNorm cfg log2 map ngrams := by
  show (List.foldl (ngramStep cfg log2 map file ro) ([], 0) ngrams).2
        = specNorm cfg log2 map ngrams
  rw [scoreNormFold_snd]
  simp

theorem mem_mapInsert (m : List (String × ℚ)) (k : String) (v : ℚ) (gp : String × ℚ)
    (h : gp ∈ mapInsert m k v) : gp ∈ m ∨ gp = (k, v) := by
  induction m with
  | nil => simpa [mapInsert] using h
  | cons p rest ih =>
    obtain ⟨pk, pv⟩ := p
    by_cases h1 : pk = k
    · simp only [mapInsert, h1, if_true] at h
      rcases List.mem_cons.mp h with heq | htl
      · exact Or.inr heq
      · exact Or.inl (List.mem_cons_of_mem _ htl)
    · simp only [mapInsert, h1, if_false] at h
      rcases List.mem_cons.mp h with heq | htl
      · exact Or.inl (heq ▸ List.mem_cons_self _ _)
      · rcases ih htl with hm | hkv
        · exact Or.inl (List.mem_cons_of_mem _ hm)
        · exact Or.inr hkv

theorem shardMapInsert_inv (P : ℕ → Prop) (m : List (ℕ × List (String × ℚ)))
    (sid : ℕ) (g : String) (v : ℚ) (hashf : String → ℕ)
    (hm : ∀ p ∈ m, P p.1 ∧ ∀ gp ∈ p.2, hashf gp.1 = p.1)
    (hsid : P sid) (hg : hashf g = sid) :
    ∀ p ∈ shardMapInsert m sid g v, P p.1 ∧ ∀ gp ∈ p.2, hashf gp.1 = p.1 := by
  induction m with
  | nil =>
    intro p hp
    simp only [shardMapInsert] at hp
    rw [List.mem_singleton] at hp
    subst hp
    refine ⟨hsid, ?_⟩
    intro gp hgp
    rcases mem_mapInsert _ _ _ _ hgp with hin | heq
    · cases hin
    · rw [heq]
      exact hg
  | cons q rest ih =>
    obtain ⟨qk, qng⟩ := q
    intro p hp
    by_cases h1 : qk = sid
    · simp only [shardMapInsert, h1, if_true] at hp
      rcases List.mem_cons.mp hp with heq | htl
      · subst heq
        refine ⟨hsid, ?_⟩
        intro gp hgp
        show hashf gp.1 = sid
        rcases mem_mapInsert _ _ _ _ hgp with hin | heq'
        · exact h1 ▸ (hm (qk, qng) (List.mem_cons_self _ _)).2 gp hin
        · rw [heq']
          exact hg
      · exact hm p (List.mem_cons_of_mem _ htl)
    · simp only [shardMapInsert, h1, if_false] at hp
      rcases List.mem_cons.mp hp with heq | htl
      · exact heq ▸ hm (qk, qng) (List.mem_cons_self _ _)
      · exact ih (fun p' hp' => hm p' (List.mem_cons_of_mem _ hp')) p htl

theorem buildShardsNgrams_foldl_inv (e : Engine) (ngrams : List (String × ℚ))
    (acc : List (ℕ × List (String × ℚ)))
    (hacc : ∀ p ∈ acc,
      (e.rangeStart ≤ p.1 ∧ p.1 < e.rangeEnd) ∧ ∀ gp ∈ p.2, e.jumpHash gp.1 = p.1) :
    ∀ p ∈ ngrams.foldl
        (fun a q =>
          if e.rangeEnd ≤ e.jumpHash q.1 ∨ e.jumpHash q.1 < e.rangeStart then a
          else shardMapInsert a (e.jumpHash q.1) q.1 q.2)
        acc,
      (e.rangeStart ≤ p.1 ∧ p.1 < e.rangeEnd) ∧ ∀ gp ∈ p.2, e.jumpHash gp.1 = p.1 := by
  induction ngrams generalizing acc with
  | nil => exact hacc
  | cons q rest ih =>
    simp only [List.foldl_cons]
    by_cases hr : e.rangeEnd ≤ e.jumpHash q.1 ∨ e.jumpHash q.1 < e.rangeStart
    · rw [if_pos hr]
      exact ih acc hacc
    · rw [if_neg hr]
      push_neg at hr
      exact ih _ (shardMapInsert_inv
        (fun i => e.rangeStart ≤ i ∧ i < e.rangeEnd) acc _ q.1 q.2 e.jumpHash
        hacc ⟨hr.2, hr.1⟩ rfl)

theorem buildShardsNgrams_inv (e : Engine) (ngrams : List (String × ℚ)) :
    ∀ p ∈ buildShardsNgrams e ngrams,
      (e.rangeStart ≤ p.1 ∧ p.1 < e.rangeEnd) ∧ ∀ gp ∈ p.2, e.jumpHash gp.1 = p.1 := by
  unfold buildShardsNgrams
  exact buildShardsNgrams_foldl_inv e ngrams [] (by intro p hp; cases hp)

theorem get_ids_id_source (e : Engine) (ngrams : List (String × ℚ)) (k : ℕ) (s : Sid)
    (h : s ∈ get_ids e ngrams k) :
    ∃ p ∈ buildShardsNgrams e ngrams,
      s.id ∈ (get_query_ids e.cfg e.log2 p.2 (e.maps p.1) (e.files p.1) (e.ro p.1)
        (shard_count_of k)).ids.map Sid.id := by
  rcases mem_get_ids_char e ngrams k s h with ⟨pr, hpr, hs⟩
  have hk : s.id ∈ keysOf (mergeShardIds (shardResults e ngrams k)).1 := by
    rw [hs]
    exact List.mem_map_of_mem Prod.fst hpr
  rcases keysOf_mergeShardIds _ _ hk with ⟨sh, hsh, hid⟩
  rcases List.mem_map.mp hsh with ⟨p, hp, hfp⟩
  exact ⟨p, hp, by rw [hfp]; exact hid⟩

theorem mapInsert_fresh (m : List (String × ℚ)) (k : String) (v : ℚ)
    (h : k ∉ m.map Prod.fst) : mapInsert m k v = m ++ [(k, v)] := by
  induction m with
  | nil => rfl
  | cons p rest ih =>
    obtain ⟨pk, pv⟩ := p
    have h1 : pk ≠ k := by
      intro he
      exact h (by simp [he])
    simp only [mapInsert, h1, if_false, List.cons_append]
    rw [ih (fun hin => h (by simp [hin]))]

theorem foldl_mapInsert_fresh (ps m : List (String × ℚ))
    (hnd : (ps.map Prod.fst).Nodup)
    (hdisj : ∀ p ∈ ps, p.1 ∉ m.map Prod.fst) :
    ps.foldl (fun m' p => mapInsert m' p.1 p.2) m = m ++ ps := by
  induction ps generalizing m with
  | nil => simp
  | cons p rest ih =>
    simp only [List.foldl_cons]
    rw [mapInsert_fresh m p.1 p.2 (hdisj p (List.mem_cons_self _ _))]
    have hnd' : (rest.map Prod.fst).Nodup := (List.nodup_cons.mp hnd).2
    have hhd : p.1 ∉ rest.map Prod.fst := (List.nodup_cons.mp hnd).1
    have hda : ∀ q ∈ rest, q.1 ∉ (m ++ [(p.1, p.2)]).map Prod.fst := by
      intro q hq hin
      rw [List.map_append] at hin
      rcases List.mem_append.mp hin with hm | hp1
      · exact hdisj q (List.mem_cons_of_mem _ hq) hm
      · rw [List.map_singleton, List.mem_singleton] at hp1
        exact hhd (hp1 ▸ List.mem_map_of_mem Prod.fst hq)
    rw [ih _ hnd' hda]
    simp

theorem ngetNgrams_single (e : Engine) (q : String)
    (hnd : ((e.parse q).map Prod.fst).Nodup) : ngetNgrams e [q] = e.parse q := by
  unfold ngetNgrams
  simp only [List.foldl_cons, List.foldl_nil]
  rw [foldl_mapInsert_fresh (e.parse q) [] hnd (by simp)]
  simp

theorem getD_padded_lt (file : List ℕ) (addr n m p : ℕ) (hp : p < n) :
    ((file.drop addr).take n ++ List.replicate m 0).getD p 0 = file.getD (addr + p) 0 := by
  rw [List.getD_eq_getElem?_getD, List.getD_eq_getElem?_getD, List.getElem?_append]
  by_cases hl : p < ((file.drop addr).take n).length
  · rw [if_pos hl, List.getElem?_take, if_pos hp, List.getElem?_drop]
  · rw [if_neg hl]
    have hl' : n ⊓ (file.length - addr) ≤ p := by
      simpa [List.length_take, List.length_drop] using not_lt.mp hl
    have hfl : file.length ≤ addr + p := by omega
    rw [List.getElem?_replicate, List.getElem?_eq_none hfl]
    rcases lt_or_ge (p - ((file.drop addr).take n).length) m with hrep | hrep
    · rw [if_pos hrep]
      rfl
    · rw [if_neg (not_lt.mpr hrep)]

theorem getD_padded_ge (file : List ℕ) (addr n m p : ℕ) (hp : n ≤ p) :
    ((file.drop addr).take n ++ List.replicate m 0).getD p 0 = 0 := by
  have hlen : ((file.drop addr).take n).length ≤ p := by
    have : ((file.drop addr).take n).length ≤ n := by simp [List.length_take]
    omega
  rw [List.getD_eq_getElem?_getD, List.getElem?_append_right hlen, List.getElem?_replicate]
  rcases lt_or_ge (p - ((file.drop addr).take n).length) m with hrep | hrep
  · rw [if_pos hrep]
    rfl
  · rw [if_neg (not_lt.mpr hrep)]
    rfl

theorem getD_map_range {β : Type} (f : ℕ → β) (len i : ℕ) (d : β) (hi : i < len) :
    ((List.range len).map f).getD i d = f i := by
  rw [List.getD_eq_getElem?_getD, List.getElem?_map, List.getElem?_range hi]
  rfl

theorem decodeRec_padded (file : List ℕ) (addr n m j : ℕ) (hj : j + 7 ≤ n) :
    decodeRec ((file.drop addr).take n ++ List.replicate m 0) j
      = decodeRec file (addr + j) := by
  unfold decodeRec readU32LE
  rw [getD_padded_lt file addr n m j (by omega),
    getD_padded_lt file addr n m (j+1) (by omega),
    getD_padded_lt file addr n m (j+2) (by omega),
    getD_padded_lt file addr n m (j+3) (by omega),
    getD_padded_lt file addr n m (j+4) (by omega),
    getD_padded_lt file addr n m (j+5) (by omega),
    getD_padded_lt file addr n m (j+6) (by omega)]
  simp [Nat.add_assoc]

theorem decodeRec_padded_zero (file : List ℕ) (addr n m j : ℕ) (hj : n ≤ j) :
    decodeRec ((file.drop addr).take n ++ List.replicate m 0) j = (0, 0, 0, 0) := by
  unfold decodeRec readU32LE
  rw [getD_padded_ge file addr n m j hj,
    getD_padded_ge file addr n m (j+1) (by omega),
    getD_padded_ge file addr n m (j+2) (by omega),
    getD_padded_ge file addr n m (j+3) (by omega),
    getD_padded_ge file addr n m (j+4) (by omega),
    getD_padded_ge file addr n m (j+5) (by omega),
    getD_padded_ge file addr n m (j+6) (by omega)]

theorem read_bucket_some_pos (cfg : Config) (file : List ℕ) (addr len n : ℕ)
    (hn : 0 < n) :
    read_bucket cfg file addr len (some n)
      = (List.range len).map
          (fun i => decodeRec
            ((file.drop addr).take n ++ List.replicate (cfg.bucketSize * cfg.idSize - n) 0)
            (i * cfg.idSize)) := by
  simp only [read_bucket, Option.getD_some]
  rw [if_pos hn]

/-- Evaluation of the concrete engine: both indexed queries score
`min(100/100, 1) · (1 + 0/1000) · log2(4/2) = 2`, the norm is
`1 · log2(4/2) = 2`, and the final scores are `2/2 = 1`, with the tied
ids emitted in descending order. -/
theorem get_ids_env0_eval : get_ids env0 [("a", 1)] 5 = [Sid.mk 1 1, Sid.mk 0 1] := by
  have e1 : elegant_pair_inv 4 = (0, 2) := by decide
  norm_num [get_ids, mergeShardIds, shardResults, buildShardsNgrams, shardMapInsert,
    mapInsert, shard_count_of, env0, get_query_ids, scoreNormFold, ngramStep,
    get_addr_and_len, sllookup, map0, file0, ro0, cfg0, e1, read_bucket, decodeRec,
    readU32LE, recordStep, pqid2qid, entryAdd, rustSortBy, List.insertionSort,
    List.orderedInsert, keepBefore, sidSortCmp, sidPartialCmp, cmpNat, cmpQ,
    List.getD, min_def, Ordering.swap]
  decide

theorem get_env0_eval : get env0 ("x") 5 = [Sid.mk 1 1, Sid.mk 0 1] := by
  rw [get, if_neg (by simp)]
  exact get_ids_env0_eval

/-- Claim C1: for every shard scoring run, for each n-gram with
query-side weight `ntr` that the shard's FST resolves to `(addr, len)`,
and for each decoded posting record `(pqid, rem, tr, f)`, the
accumulated contribution to the score of
`qid = pqid * nr_shards + rem` equals
`min(tr/100, ntr) * (1 + f/1000) * log2(shard_size / len)`, summed over
all records and n-grams: the score map built by the scoring loop of
`get_query_ids` assigns to every `qid` exactly that double sum. -/
theorem claim_c1 (cfg : Config) (log2 : ℚ → ℚ) (map : List (String × ℕ)) (file : List ℕ)
    (ro : ℕ → Option ℕ) (ngrams : List (String × ℚ)) (qid : ℕ) :
    assocGet (scoreNormFold cfg log2 map file ro ngrams).1 qid
      = (ngrams.map (ngramContribution cfg log2 map file ro qid)).sum := by
  unfold scoreNormFold
  rw [scoreNormFold_fst]
  simp [assocGet_nil]

/-- Claim C2: every id returned by `get_ids` carries score
(sum of that id's per-shard scores) / `global_norm`, where
`global_norm` is the sum of the participating shards' norms, and each
shard norm is `Σ ntr · idf` with `idf = log2(shard_size/len)` on an FST
hit and `idf = log2(shard_size)` on a miss. -/
theorem claim_c2 (e : Engine) (ngrams : List (String × ℚ)) (k : ℕ) (s : Sid)
    (h : s ∈ get_ids e ngrams k) :
    s.sc = ((shardResults e ngrams k).map (fun sh => listScore sh.ids s.id)).sum
            / ((shardResults e ngrams k).map ShardIds.norm).sum
      ∧ ((shardResults e ngrams k).map ShardIds.norm).sum
          = ((buildShardsNgrams e ngrams).map
              (fun p => specNorm e.cfg e.log2 (e.maps p.1) p.2)).sum := by
  constructor
  · rcases mem_get_ids_char e ngrams k s h with ⟨pr, hpr, hs⟩
    have hnd := nodup_mergeShardIds (shardResults e ngrams k)
    have hget : assocGet (mergeShardIds (shardResults e ngrams k)).1 pr.1 = pr.2 := by
      unfold assocGet
      rw [alookup_eq_of_mem _ pr.1 pr.2 hnd hpr]
      rfl
    have hpr2 : pr.2
        = ((shardResults e ngrams k).map (fun sh => listScore sh.ids pr.1)).sum := by
      rw [← hget, mergeShardIds_fst]
    rw [hs]
    show pr.2 / (mergeShardIds (shardResults e ngrams k)).2
          = ((shardResults e ngrams k).map (fun sh => listScore sh.ids pr.1)).sum
            / ((shardResults e ngrams k).map ShardIds.norm).sum
    rw [hpr2, mergeShardIds_snd]
  · show ((shardResults e ngrams k).map ShardIds.norm).sum = _
    unfold shardResults
    rw [List.map_map]
    refine congrArg List.sum (List.map_congr_left ?_)
    intro p hp
    exact get_query_ids_norm e.cfg e.log2 p.2 (e.maps p.1) (e.files p.1) (e.ro p.1)
      (shard_count_of k)

/-- Claim C3, counterexample to the tie-break direction: a concrete
per-shard scoring run in which two entries carry the same score and the
output lists the LARGER id first — the comparator
`a.partial_cmp(&b).unwrap_or(Less).reverse()` reverses the id
comparison together with the score comparison, so equal-score ids come
out descending, not ascending. -/
theorem claim_c3_counterexample :
    (get_query_ids cfg0 (fun q => q) [("a", 1)] map0 file0 ro0 10).ids
        = [Sid.mk 1 2, Sid.mk 0 2]
      ∧ (Sid.mk 1 2).sc = (Sid.mk 0 2).sc
      ∧ (Sid.mk 0 2).id < (Sid.mk 1 2).id := by
  refine ⟨?_, rfl, by norm_num⟩
  have e1 : elegant_pair_inv 4 = (0, 2) := by decide
  norm_num [get_query_ids, scoreNormFold, ngramStep, get_addr_and_len, sllookup,
    map0, file0, ro0, cfg0, e1, read_bucket, decodeRec, readU32LE, recordStep, pqid2qid,
    entryAdd, rustSortBy, List.insertionSort, List.orderedInsert, keepBefore, sidSortCmp,
    sidPartialCmp, cmpNat, cmpQ, List.getD, min_def, Ordering.swap]

/-- Claim C3 as amended: every result list of the per-shard scorer, of
`get_ids`, of `get` and of `nget` is sorted by score descending, and
entries with equal scores appear with ids in DESCENDING order (the
claim said ascending). -/
theorem claim_c3_amended (cfg : Config) (log2 : ℚ → ℚ) (ngrams : List (String × ℚ))
    (map : List (String × ℕ)) (file : List ℕ) (ro : ℕ → Option ℕ) (count : ℕ)
    (e : Engine) (ng : List (String × ℚ)) (k : ℕ) (q : String) (qvec : List String) :
    List.Pairwise sidLe (get_query_ids cfg log2 ngrams map file ro count).ids
    ∧ List.Pairwise sidLe (get_ids e ng k)
    ∧ List.Pairwise sidLe (get e q k)
    ∧ List.Pairwise sidLe (nget e qvec k) := by
  have hq : List.Pairwise sidLe (get_query_ids cfg log2 ngrams map file ro count).ids := by
    have hids : (get_query_ids cfg log2 ngrams map file ro count).ids
        = (rustSortBy sidSortCmp
            ((scoreNormFold cfg log2 map file ro ngrams).1.map
              (fun p => Sid.mk p.1 p.2))).take count := rfl
    rw [hids]
    exact pairwise_take _ _ (rustSortBy_pairwise _)
  have hgi : ∀ (e' : Engine) (ng' : List (String × ℚ)) (k' : ℕ),
      List.Pairwise sidLe (get_ids e' ng' k') := by
    intro e' ng' k'
    have hids : get_ids e' ng' k'
        = (rustSortBy sidSortCmp
            ((mergeShardIds (shardResults e' ng' k')).1.map
              (fun p => Sid.mk p.1 (p.2 / (mergeShardIds (shardResults e' ng' k')).2)))).take
            k' := rfl
    rw [hids]
    exact pairwise_take _ _ (rustSortBy_pairwise _)
  refine ⟨hq, hgi e ng k, ?_, ?_⟩
  · unfold get
    by_cases hc : q = "" ∨ k = 0
    · rw [if_pos hc]
      exact List.Pairwise.nil
    · rw [if_neg hc]
      exact hgi e (e.parse q) k
  · unfold nget
    by_cases hc : qvec.length = 0 ∨ k = 0
    · rw [if_pos hc]
      exact List.Pairwise.nil
    · rw [if_neg hc]
      exact hgi e (ngetNgrams e qvec) k

/-- Claim C4, counterexample: sorting the two-element list
`[Sid{id 2, sc NaN}, Sid{id 1, sc 1}]` with the source comparator
leaves the NaN entry FIRST — ahead of a non-NaN entry — because every
comparison involving NaN returns `None`, which
`unwrap_or(Less).reverse()` turns into `Greater`, so a NaN entry is
never "less" and never sinks to the tail. -/
theorem claim_c4_counterexample :
    rustSortBy sidFSortCmp [SidF.mk 2 none, SidF.mk 1 (some 1)]
        = [SidF.mk 2 none, SidF.mk 1 (some 1)]
      ∧ (SidF.mk 2 none).sc = none
      ∧ (SidF.mk 1 (some 1)).sc ≠ none := by
  refine ⟨by decide, rfl, by decide⟩

/-- Claim C4 as amended: in the comparator actually handed to
`sort_by`, every comparison in which either score is NaN evaluates to
`Ordering::Greater` (partial_cmp gives `None`, `unwrap_or` gives
`Less`, and `reverse` flips it): a NaN never compares as less than
another score, and NaN entries are not guaranteed to land after the
non-NaN entries. -/
theorem claim_c4_amended (a b : SidF) (h : a.sc = none ∨ b.sc = none) :
    sidFSortCmp a b = Ordering.gt := by
  have hpc : sidFPartialCmp a b = none := by
    rcases h with h | h
    · cases hb : b.sc <;> simp [sidFPartialCmp, f32Eq, f32PartialCmp, h, hb]
    · cases ha : a.sc <;> simp [sidFPartialCmp, f32Eq, f32PartialCmp, h, ha]
  unfold sidFSortCmp
  rw [hpc]
  rfl

theorem claim_c4_witness : sidFSortCmp (SidF.mk 2 none) (SidF.mk 1 (some 1)) = Ordering.gt :=
  claim_c4_amended (SidF.mk 2 none) (SidF.mk 1 (some 1)) (Or.inl rfl)

/-- Claim C5, counterexample to the short-read clause: with
`id_size = 7` and `bucket_size = 2`, reading a bucket of `len = 2`
records from a 7-byte file delivers only 7 of the requested 14 bytes,
yet `read_bucket` still returns 2 records — the second one decoded from
the zero-initialised remainder of the buffer — instead of the 1-record
prefix that was actually available. -/
theorem claim_c5_counterexample :
    read_bucket cfg0 file5 0 2 (some 7)
        = [(1, 0, 100, 0), (0, 0, 0, 0)]
      ∧ (read_bucket cfg0 file5 0 2 (some 7)).length = 2 := by
  refine ⟨by decide, by decide⟩

/-- Claim C5 as amended: if the read fails (`Err`, or 0 bytes
delivered) `read_bucket` returns the empty vector; if it delivers
`n > 0` bytes it returns exactly `len` records decoded from a
zero-padded buffer — records lying entirely within the delivered bytes
decode from the file, and records lying entirely beyond them decode as
`(0, 0, 0, 0)`. -/
theorem claim_c5_amended (cfg : Config) (file : List ℕ) (addr len n : ℕ) (hn : 0 < n) :
    read_bucket cfg file addr len none = []
    ∧ read_bucket cfg file addr len (some 0) = []
    ∧ (read_bucket cfg file addr len (some n)).length = len
    ∧ (∀ i, i < len → i * cfg.idSize + 7 ≤ n →
        (read_bucket cfg file addr len (some n)).getD i (0, 0, 0, 0)
          = decodeRec file (addr + i * cfg.idSize))
    ∧ (∀ i, i < len → n ≤ i * cfg.idSize →
        (read_bucket cfg file addr len (some n)).getD i (0, 0, 0, 0) = (0, 0, 0, 0)) := by
  refine ⟨rfl, rfl, ?_, ?_, ?_⟩
  · rw [read_bucket_some_pos cfg file addr len n hn]
    simp
  · intro i hi hn7
    rw [read_bucket_some_pos cfg file addr len n hn, getD_map_range _ _ _ _ hi,
      decodeRec_padded file addr n _ _ hn7]
  · intro i hi hge
    rw [read_bucket_some_pos cfg file addr len n hn, getD_map_range _ _ _ _ hi,
      decodeRec_padded_zero file addr n _ _ hge]

theorem claim_c5_witness :
    read_bucket cfg0 file5 0 2 none = []
    ∧ (read_bucket cfg0 file5 0 2 (some 7)).length = 2
    ∧ (read_bucket cfg0 file5 0 2 (some 7)).getD 0 (0, 0, 0, 0)
        = decodeRec file5 (0 + 0 * cfg0.idSize)
    ∧ (read_bucket cfg0 file5 0 2 (some 7)).getD 1 (0, 0, 0, 0) = (0, 0, 0, 0) := by
  have h := claim_c5_amended cfg0 file5 0 2 7 (by decide)
  exact ⟨h.1, h.2.2.1, h.2.2.2.1 0 (by decide) (by decide),
    h.2.2.2.2 1 (by decide) (by decide)⟩

/-- Claim C6: the per-shard count requested from each shard scorer by
`get_ids` (the `shard_count_of` it passes to `get_query_ids`) is 100
when `1 ≤ k ≤ 50` and `k` otherwise. -/
theorem claim_c6 (k : ℕ) :
    (1 ≤ k → k ≤ 50 → shard_count_of k = 100)
    ∧ (¬ (1 ≤ k ∧ k ≤ 50) → shard_count_of k = k) := by
  unfold shard_count_of
  constructor
  · intro h1 h2
    rw [if_pos ⟨h1, h2⟩]
  · intro h
    rw [if_neg h]

theorem claim_c6_witness : shard_count_of 10 = 100 ∧ shard_count_of 60 = 60 :=
  ⟨(claim_c6 10).1 (by decide) (by decide), (claim_c6 60).2 (by decide)⟩

/-- Claim C7: `get` returns the empty list on an empty query or a zero
count, and `nget` returns the empty list on an empty query vector or a
zero count, in every engine state, without any error. -/
theorem claim_c7 (e : Engine) (q : String) (k : ℕ) (qs : List String) :
    get e ("") k = [] ∧ get e q 0 = [] ∧ nget e [] k = [] ∧ nget e qs 0 = [] := by
  refine ⟨?_, ?_, ?_, ?_⟩ <;> simp [get, nget]

/-- Claim C8: `nget` parses each query in order and union-merges the
n-gram maps with the last writer winning (this is the definition of
`ngetNgrams`); consequently, for a query whose parse has no duplicate
n-grams (and which parses to nothing when empty, as any n-gram parser
does), `nget([q], k)` returns exactly `get(q, k)` — in particular the
same set of ids. -/
theorem claim_c8 (e : Engine) (q : String) (k : ℕ)
    (hnd : ((e.parse q).map Prod.fst).Nodup)
    (hempty : q = "" → e.parse q = []) :
    nget e [q] k = get e q k := by
  by_cases hk : k = 0
  · subst hk
    simp [get, nget]
  · by_cases hq : q = ""
    · have hp := hempty hq
      subst hq
      rw [get, if_pos (Or.inl rfl), nget, if_neg (by simp [hk])]
      rw [show ngetNgrams e [""] = [] by simp [ngetNgrams, hp]]
      simp [get_ids, mergeShardIds, shardResults, buildShardsNgrams, rustSortBy,
        List.insertionSort]
    · rw [get, if_neg (by simp [hq, hk]), nget, if_neg (by simp [hk])]
      rw [ngetNgrams_single e q hnd]

theorem claim_c8_witness : nget env0 [("x")] 1 = get env0 ("x") 1 :=
  claim_c8 env0 ("x") 1 (by simp [env0]) (fun h => absurd h (by simp))

/-- Claim C9: partitioning keeps exactly the n-grams whose shard hash
lies in `[rangeStart, rangeEnd)` — every bucket of the partition is an
in-range shard and contains only n-grams hashing to that shard — and
every id in a result of `get` or `nget` is contributed by the scorer of
such an in-range shard. -/
theorem claim_c9 (e : Engine) (ngrams : List (String × ℚ)) (q : String)
    (qvec : List String) (k : ℕ) :
    (∀ p ∈ buildShardsNgrams e ngrams,
        (e.rangeStart ≤ p.1 ∧ p.1 < e.rangeEnd) ∧ ∀ gp ∈ p.2, e.jumpHash gp.1 = p.1)
    ∧ (∀ s ∈ get e q k, ∃ p ∈ buildShardsNgrams e (e.parse q),
        (e.rangeStart ≤ p.1 ∧ p.1 < e.rangeEnd)
        ∧ s.id ∈ (get_query_ids e.cfg e.log2 p.2 (e.maps p.1) (e.files p.1) (e.ro p.1)
            (shard_count_of k)).ids.map Sid.id)
    ∧ (∀ s ∈ nget e qvec k, ∃ p ∈ buildShardsNgrams e (ngetNgrams e qvec),
        (e.rangeStart ≤ p.1 ∧ p.1 < e.rangeEnd)
        ∧ s.id ∈ (get_query_ids e.cfg e.log2 p.2 (e.maps p.1) (e.files p.1) (e.ro p.1)
            (shard_count_of k)).ids.map Sid.id) := by
  refine ⟨buildShardsNgrams_inv e ngrams, ?_, ?_⟩
  · intro s hs
    unfold get at hs
    by_cases hc : q = "" ∨ k = 0
    · rw [if_pos hc] at hs
      cases hs
    · rw [if_neg hc] at hs
      rcases get_ids_id_source e (e.parse q) k s hs with ⟨p, hp, hid⟩
      exact ⟨p, hp, (buildShardsNgrams_inv e (e.parse q) p hp).1, hid⟩
  · intro s hs
    unfold nget at hs
    by_cases hc : qvec.length = 0 ∨ k = 0
    · rw [if_pos hc] at hs
      cases hs
    · rw [if_neg hc] at hs
      rcases get_ids_id_source e (ngetNgrams e qvec) k s hs with ⟨p, hp, hid⟩
      exact ⟨p, hp, (buildShardsNgrams_inv e (ngetNgrams e qvec) p hp).1, hid⟩

theorem claim_c9_witness :
    ∃ p ∈ buildShardsNgrams env0 (env0.parse ("x")),
      (env0.rangeStart ≤ p.1 ∧ p.1 < env0.rangeEnd)
      ∧ (Sid.mk 1 1).id ∈ (get_query_ids env0.cfg env0.log2 p.2 (env0.maps p.1)
          (env0.files p.1) (env0.ro p.1) (shard_count_of 5)).ids.map Sid.id := by
  apply (claim_c9 env0 [] ("x") [] 5).2.1 (Sid.mk 1 1)
  rw [get_env0_eval]
  exact List.mem_cons_self _ _

/-- Claim C10: the list `get_str(q, c)` JSON-encodes is the first `c`
elements of `get(q, 30 · c)` mapped to `(id, sc)` pairs — `get_str`
over-fetches thirty times the requested count and truncates, instead of
calling `get(q, c)`; `nget_str` does the same over `nget` (stated for
counts where the `u32` product `30 · c` does not wrap). -/
theorem claim_c10 (e : Engine) (q : String) (qs : List String) (c : ℕ)
    (h : 30 * c < 2^32) :
    get_str_list e q c = ((get e q (30 * c)).map (fun s => (s.id, s.sc))).take c
    ∧ nget_str_list e qs c = ((nget e qs (30 * c)).map (fun s => (s.id, s.sc))).take c := by
  unfold get_str_list nget_str_list
  rw [Nat.mod_eq_of_lt h]
  exact ⟨rfl, rfl⟩

theorem claim_c10_witness :
    get_str_list env0 ("x") 1 = ((get env0 ("x") 30).map (fun s => (s.id, s.sc))).take 1 :=
  (claim_c10 env0 ("x") [] 1 (by norm_num)).1

theorem claim_c2_witness :
    (Sid.mk 1 1) ∈ get_ids env0 [("a", 1)] 5
    ∧ (Sid.mk 1 1).sc
        = ((shardResults env0 [("a", 1)] 5).map
            (fun sh => listScore sh.ids (Sid.mk 1 1).id)).sum
          / ((shardResults env0 [("a", 1)] 5).map ShardIds.norm).sum := by
  have hmem : (Sid.mk 1 1) ∈ get_ids env0 [("a", 1)] 5 := by
    rw [get_ids_env0_eval]
    exact List.mem_cons_self _ _
  exact ⟨hmem, (claim_c2 env0 [("a", 1)] 5 (Sid.mk 1 1) hmem).1⟩

end Qpick
